import Mathlib

/-!
Verification development for the Payroll identity-resolution subsystem:
a shallow embedding of `src/Payroll/matcher.py` (name normalization,
multi-signal scoring, decision policy, best-match selection) and of
`src/Payroll/database.py` (the persistent mapping store with its
verification lifecycle), together with theorems settling the stated
properties of these components.

Python floats are modelled as rationals (`ℚ`); the SQLite table is
modelled as a list of rows with the `UNIQUE (harvest_user_id)`
`INSERT OR REPLACE` semantics made explicit; wall-clock timestamps are
passed in as explicit `now` arguments.
-/

namespace Payroll

/-! ### Generic stable descending sort

`list.sort(key=..., reverse=True)` in Python is a stable sort; on a
descending sort ties keep their original relative order.  We model it
as stable insertion sort: an element is inserted before the first
position whose key is not strictly greater, which preserves the
original order of equal keys. -/

def insertDescBy {α β : Type} [LinearOrder β] (key : α → β) (x : α) : List α → List α
  | [] => [x]
  | y :: ys => if key x < key y then y :: insertDescBy key x ys else x :: y :: ys

def sortDescBy {α β : Type} [LinearOrder β] (key : α → β) : List α → List α
  | [] => []
  | x :: xs => insertDescBy key x (sortDescBy key xs)

/-- First element attaining the maximum key among `b :: l` (later elements
must be strictly greater to displace an earlier one). -/
def firstMaxBy {α β : Type} [LinearOrder β] (key : α → β) : α → List α → α
  | b, [] => b
  | b, y :: ys => if key b < key y then firstMaxBy key y ys else firstMaxBy key b ys

/-! ### Character-level helpers for `UserMatcher.normalize_name`

The Python pipeline is
`re.sub(r'[^\w\s\-]', '', re.sub(r'\s+', ' ', name.lower().strip()))`
applied to `unicodedata.normalize('NFKD', name).encode('ascii','ignore')`.
At the point the regexes and `lower()`/`strip()` run, every character is
ASCII, so the ASCII readings of `\w`, `\s`, `str.lower` and `str.strip`
below are exact. -/

/-- Characters matched by Python `\s` / stripped by `str.strip()` (the
strings involved are ASCII by that point of the pipeline). -/
def isPySpace (c : Char) : Bool :=
  decide (c = ' ' ∨ c = '\t' ∨ c = '\n' ∨ c = '\r' ∨ c = '\x0b' ∨ c = '\x0c')

/-- Characters matched by Python `\w` on an ASCII string:
letters, digits and the underscore. -/
def isWordChar (c : Char) : Bool :=
  decide ((97 ≤ c.toNat ∧ c.toNat ≤ 122) ∨ (65 ≤ c.toNat ∧ c.toNat ≤ 90) ∨
    (48 ≤ c.toNat ∧ c.toNat ≤ 57) ∨ c = '_')

/-- Characters kept by `re.sub(r'[^\w\s\-]', '', ·)`. -/
def keepWordChar (c : Char) : Bool :=
  isWordChar c || isPySpace c || c == '-'

/-- Modelled from the Python standard library:
`unicodedata.normalize('NFKD', ·)` followed by
`.encode('ascii', 'ignore').decode('utf-8')`, viewed per character.
ASCII characters are left unchanged (they have no NFKD decomposition and
survive the ASCII encode); accented Latin letters decompose into their
base letter followed by combining marks, which the ASCII encode drops;
characters with no ASCII-compatible decomposition are dropped entirely.
The table below covers the common accented Latin letters; every theorem
in this file relies only on the facts that ASCII characters are fixed
points and that all outputs are ASCII. -/
def asciiFold (c : Char) : List Char :=
  if c.toNat < 128 then [c]
  else if c ∈ ['à', 'á', 'â', 'ã', 'ä', 'å', 'ā'] then ['a']
  else if c ∈ ['À', 'Á', 'Â', 'Ã', 'Ä', 'Å', 'Ā'] then ['A']
  else if c ∈ ['è', 'é', 'ê', 'ë', 'ē'] then ['e']
  else if c ∈ ['È', 'É', 'Ê', 'Ë', 'Ē'] then ['E']
  else if c ∈ ['ì', 'í', 'î', 'ï'] then ['i']
  else if c ∈ ['Ì', 'Í', 'Î', 'Ï'] then ['I']
  else if c ∈ ['ò', 'ó', 'ô', 'õ', 'ö', 'ō'] then ['o']
  else if c ∈ ['Ò', 'Ó', 'Ô', 'Õ', 'Ö', 'Ō'] then ['O']
  else if c ∈ ['ù', 'ú', 'û', 'ü', 'ū'] then ['u']
  else if c ∈ ['Ù', 'Ú', 'Û', 'Ü', 'Ū'] then ['U']
  else if c ∈ ['ñ', 'ń'] then ['n']
  else if c ∈ ['Ñ', 'Ń'] then ['N']
  else if c ∈ ['ç', 'ć', 'č'] then ['c']
  else if c ∈ ['Ç', 'Ć', 'Č'] then ['C']
  else if c ∈ ['ý', 'ÿ'] then ['y']
  else []

/-- Python `str.strip()`: drop leading and trailing whitespace. -/
def pyStrip (l : List Char) : List Char :=
  (((l.dropWhile isPySpace).reverse).dropWhile isPySpace).reverse

/-- Worker for `re.sub(r'\s+', ' ', ·)`: the flag records whether the
previous character was part of a whitespace run already replaced. -/
def collapseWsAux : Bool → List Char → List Char
  | _, [] => []
  | prevWs, c :: cs =>
    if isPySpace c then
      if prevWs then collapseWsAux true cs
      else ' ' :: collapseWsAux true cs
    else c :: collapseWsAux false cs

/-- Python `re.sub(r'\s+', ' ', ·)`: every maximal whitespace run becomes
a single space. -/
def collapseWs (l : List Char) : List Char :=
  collapseWsAux false l

/-- Embedding of `UserMatcher.normalize_name` at the character-list level:
`if not name: return ""`, then NFKD + ASCII-ignore, then
`lower().strip()`, then whitespace collapsing, then removal of special
characters other than hyphen. -/
def normalizeChars (l : List Char) : List Char :=
  if l = [] then []
  else (collapseWs (pyStrip ((l.flatMap asciiFold).map Char.toLower))).filter keepWordChar

/-- Embedding of `UserMatcher.normalize_name` (matcher.py lines 33 to 47). -/
def normalize_name (name : String) : String :=
  ⟨normalizeChars name.data⟩

/-- Embedding of `UserMatcher.normalize_email` (matcher.py lines 49 to 53):
`email.lower().strip()`, empty for falsy input.  `Char.toLower` agrees
with Python `str.lower` on ASCII. -/
def normalize_email (email : String) : String :=
  if email = "" then "" else ⟨pyStrip (email.data.map Char.toLower)⟩

/-- The character set the specification names for normalized output —
"letters, digits, whitespace, and hyphen" — read over ASCII (every
normalized character is ASCII).  Stated from the spec's words, for
comparison against what the code actually keeps. -/
def specC9Char (c : Char) : Bool :=
  decide ((65 ≤ c.toNat ∧ c.toNat ≤ 90) ∨ (97 ≤ c.toNat ∧ c.toNat ≤ 122) ∨
    (48 ≤ c.toNat ∧ c.toNat ≤ 57)) || isPySpace c || c == '-'

/-- Characters that can actually appear in `normalize_name` output:
lowercase letters, digits, the space, the hyphen and the underscore.
Proof-support predicate. -/
def canonChar (c : Char) : Bool :=
  decide ((97 ≤ c.toNat ∧ c.toNat ≤ 122) ∨ (48 ≤ c.toNat ∧ c.toNat ≤ 57) ∨
    c = ' ' ∨ c = '-' ∨ c = '_')

/-- No two adjacent spaces.  Proof-support predicate for the shape of
whitespace-collapsed strings. -/
def noDblSpace : List Char → Bool
  | [] => true
  | [_] => true
  | a :: b :: rest => !(a == ' ' && b == ' ') && noDblSpace (b :: rest)

/-! ### Matcher data model (matcher.py) -/

/-- The worker object nested in a Deel contract; a missing `email` or
`full_name` key is read via `.get(..., '')` and so is modelled as `""`. -/
structure Worker where
  email : String
  full_name : String
deriving DecidableEq

/-- A Deel contract record as consumed by the matcher. -/
structure DeelContract where
  id : String
  title : String
  status : String
  worker : Option Worker
deriving DecidableEq

/-- A Harvest user record as consumed by the matcher. -/
structure HarvestUser where
  id : String
  email : String
  first_name : String
  last_name : String
deriving DecidableEq

/-- The four string-similarity scorers imported from rapidfuzz (or
fuzzywuzzy as fallback).  They are external library code, so the
embedding is parameterized over them; each returns a score that the
library documents to lie in `[0, 100]`. -/
structure FuzzAlgs where
  ratio : String → String → ℚ
  token_sort_ratio : String → String → ℚ
  token_set_ratio : String → String → ℚ
  part_ratio : String → String → ℚ

/-- The library guarantee that every scorer returns values in `[0, 100]`. -/
def FuzzInRange (F : FuzzAlgs) : Prop :=
  ∀ a b : String,
    (0 ≤ F.ratio a b ∧ F.ratio a b ≤ 100) ∧
    (0 ≤ F.token_sort_ratio a b ∧ F.token_sort_ratio a b ≤ 100) ∧
    (0 ≤ F.token_set_ratio a b ∧ F.token_set_ratio a b ≤ 100) ∧
    (0 ≤ F.part_ratio a b ∧ F.part_ratio a b ≤ 100)

/-- A concrete scorer used for witnesses: score 100 on equal strings,
0 otherwise (every real fuzzy scorer returns 100 on identical inputs). -/
def fuzzExact : FuzzAlgs :=
  ⟨fun a b => if a = b then 100 else 0,
   fun a b => if a = b then 100 else 0,
   fun a b => if a = b then 100 else 0,
   fun a b => if a = b then 100 else 0⟩

/-- Embedding of `UserMatcher.compute_name_similarity` (matcher.py lines
55 to 88), reduced to the `score` entry of the returned dict: `0` when
either normalized name is empty (`missing_data`), otherwise the maximum
of the four scorers, each scaled from `[0,100]` to `[0,1]`.  The other
dict entries (`method` and the four per-algorithm sub-scores) are
reporting metadata never read by the rest of the code. -/
def compute_name_similarity (F : FuzzAlgs) (name1 name2 : String) : ℚ :=
  let n1 := normalize_name name1
  let n2 := normalize_name name2
  if n1 = "" ∨ n2 = "" then 0
  else
    max (max (max (F.ratio n1 n2 / 100) (F.token_sort_ratio n1 n2 / 100))
      (F.token_set_ratio n1 n2 / 100)) (F.part_ratio n1 n2 / 100)

/-- Result of scoring one Harvest user against one Deel contract.  The
fields `email_match`, `name_similarity` and `matched_against` are the
numeric and string entries of the Python `signals` dict (the nested
`name_details` dict is reporting metadata). -/
structure MatchResult where
  harvest_user_id : String
  deel_contract_id : String
  confidence : ℚ
  email_match : ℚ
  name_similarity : ℚ
  matched_against : String
  decision : String
deriving DecidableEq

/-- The matcher configuration: the two confidence thresholds. -/
structure UserMatcher where
  auto_accept : ℚ
  review_threshold : ℚ
deriving DecidableEq

/-- The defaults of `UserMatcher.__init__` (0.90 / 0.70). -/
def defaultMatcher : UserMatcher :=
  ⟨9 / 10, 7 / 10⟩

/-- `deel_contract.get('worker') or {}`: a missing worker object behaves
as one with every key missing. -/
def emptyWorker : Worker :=
  ⟨"", ""⟩

/-- Signal 1 of `match_user` (matcher.py lines 104 to 116): the pair
(signal value, weight) for the email signal — `(1.0, 5.0)` when both
normalized emails are nonempty and equal, `(0.0, 0.5)` otherwise. -/
def email_signal (harvest_email deel_email : String) : ℚ × ℚ :=
  if harvest_email ≠ "" ∧ deel_email ≠ "" ∧ harvest_email = deel_email then (1, 5)
  else (0, 1 / 2)

/-- Signal 2 of `match_user` (matcher.py lines 130 to 136): keep the
better of the two name-similarity results, recording which field won
(ties go to the contract title, since the code switches only on a
strictly greater worker score). -/
def best_name_pick (title_score worker_score : ℚ) : ℚ × String :=
  if title_score < worker_score then (worker_score, "worker.full_name")
  else (title_score, "title")

/-- Embedding of `UserMatcher.match_user` (matcher.py lines 90 to 166).
The `signals`/`weights` dicts always hold exactly the email signal and
the best name-similarity signal (weight 5), so the dict-driven weighted
sum over `weights` is written out directly. -/
def match_user (F : FuzzAlgs) (M : UserMatcher) (harvest_user : HarvestUser)
    (deel_contract : DeelContract) : MatchResult :=
  let worker := deel_contract.worker.getD emptyWorker
  let emailPair :=
    email_signal (normalize_email harvest_user.email) (normalize_email worker.email)
  let harvest_name := harvest_user.first_name ++ " " ++ harvest_user.last_name
  let pick :=
    best_name_pick (compute_name_similarity F harvest_name deel_contract.title)
      (compute_name_similarity F harvest_name worker.full_name)
  let confidence := (emailPair.1 * emailPair.2 + pick.1 * 5) / (emailPair.2 + 5)
  let decision :=
    if 95 / 100 ≤ pick.1 then "auto_accept"
    else if M.auto_accept ≤ confidence then "auto_accept"
    else if M.review_threshold ≤ confidence then "needs_review"
    else "auto_reject"
  { harvest_user_id := harvest_user.id
    deel_contract_id := deel_contract.id
    confidence := confidence
    email_match := emailPair.1
    name_similarity := pick.1
    matched_against := pick.2
    decision := decision }

/-- Embedding of `UserMatcher.find_best_match` (matcher.py lines 168 to
199): keep only `in_progress` contracts, return `none` when none remain,
otherwise score them all, sort by confidence descending (Python's stable
sort) and return the head unless its decision is `auto_reject`.  The
`[]` arm of the match is unreachable (the filtered list is nonempty
there) and mirrors `all_matches[0]` on a nonempty list. -/
def find_best_match (F : FuzzAlgs) (M : UserMatcher) (harvest_user : HarvestUser)
    (deel_contracts : List DeelContract) : Option MatchResult :=
  let active_contracts := deel_contracts.filter (fun c => c.status == "in_progress")
  if active_contracts = [] then none
  else
    match sortDescBy (fun m : MatchResult => m.confidence)
        (active_contracts.map (match_user F M harvest_user)) with
    | [] => none
    | best :: _ => if best.decision = "auto_reject" then none else some best

/-! ### Mapping store data model (database.py)

One SQLite table `user_mappings` with `harvest_user_id TEXT NOT NULL
UNIQUE`.  A row is modelled with `Option String` for the nullable
reviewer columns; `REAL` as `ℚ`; the serialized `match_signals` JSON as
an uninterpreted string.  The autoincrement surrogate `id` column is
never read by the code and is omitted. -/

structure MappingRecord where
  harvest_user_id : String
  harvest_email : String
  harvest_name : String
  deel_contract_id : String
  deel_email : String
  deel_name : String
  match_method : String
  confidence_score : ℚ
  match_signals : String
  verification_status : String
  verified_by : Option String
  verified_at : Option String
  created_at : String
  updated_at : String
  is_active : Bool
deriving DecidableEq

/-- The table contents.  SQLite row order is unspecified; the queries
that impose an `ORDER BY` sort explicitly below. -/
structure MappingDatabase where
  rows : List MappingRecord
deriving DecidableEq

/-- `init_database` on a fresh path: the freshly created empty table. -/
def initDatabase : MappingDatabase :=
  ⟨[]⟩

/-- The row inserted by `create_mapping`: the columns listed in the
INSERT take the given values, every other column takes its schema
default (`verified_by`/`verified_at` NULL, `created_at`
CURRENT_TIMESTAMP, `is_active` 1). -/
def mkMappingRecord (harvest_user_id harvest_email harvest_name deel_contract_id
    deel_email deel_name match_method : String) (confidence_score : ℚ)
    (match_signals verification_status now : String) : MappingRecord :=
  { harvest_user_id := harvest_user_id
    harvest_email := harvest_email
    harvest_name := harvest_name
    deel_contract_id := deel_contract_id
    deel_email := deel_email
    deel_name := deel_name
    match_method := match_method
    confidence_score := confidence_score
    match_signals := match_signals
    verification_status := verification_status
    verified_by := none
    verified_at := none
    created_at := now
    updated_at := now
    is_active := true }

/-- Embedding of `MappingDatabase.create_mapping` (database.py lines 61
to 83): `INSERT OR REPLACE` keyed by the `UNIQUE harvest_user_id`
constraint deletes any existing row with the same key and inserts a
fresh row (unlisted columns revert to their defaults). -/
def create_mapping (db : MappingDatabase) (harvest_user_id harvest_email harvest_name
    deel_contract_id deel_email deel_name match_method : String)
    (confidence_score : ℚ) (match_signals verification_status now : String) :
    MappingDatabase :=
  ⟨db.rows.filter (fun r => r.harvest_user_id != harvest_user_id) ++
    [mkMappingRecord harvest_user_id harvest_email harvest_name deel_contract_id
      deel_email deel_name match_method confidence_score match_signals
      verification_status now]⟩

/-- Embedding of `MappingDatabase.get_deel_contract_by_harvest_id`
(database.py lines 85 to 98): the contract id of the active row for this
Harvest user, if any. -/
def get_deel_contract_by_harvest_id (db : MappingDatabase) (harvest_user_id : String) :
    Option String :=
  (db.rows.find? (fun r => r.harvest_user_id == harvest_user_id && r.is_active)).map
    (fun r => r.deel_contract_id)

/-- Embedding of `MappingDatabase.get_pending_reviews` (database.py lines
100 to 115): active rows awaiting review, ordered by confidence
descending. -/
def get_pending_reviews (db : MappingDatabase) : List MappingRecord :=
  sortDescBy (fun r => r.confidence_score)
    (db.rows.filter (fun r => r.verification_status == "needs_review" && r.is_active))

/-- The effect of the `verify_mapping` UPDATE on a single row: the SET
clause applies exactly to rows whose `harvest_user_id` matches. -/
def verifyRow (harvest_user_id : String) (approved : Bool) (verified_by now : String)
    (r : MappingRecord) : MappingRecord :=
  if r.harvest_user_id = harvest_user_id then
    if approved then
      { r with verification_status := "human_verified"
               verified_by := some verified_by
               verified_at := some now
               updated_at := now }
    else
      { r with verification_status := "human_rejected"
               is_active := false
               verified_by := some verified_by
               verified_at := some now
               updated_at := now }
  else r

/-- Embedding of `MappingDatabase.verify_mapping` (database.py lines 117
to 145): an UPDATE over every row with this `harvest_user_id` (at most
one, by the UNIQUE constraint). -/
def verify_mapping (db : MappingDatabase) (harvest_user_id : String) (approved : Bool)
    (verified_by now : String) : MappingDatabase :=
  ⟨db.rows.map (verifyRow harvest_user_id approved verified_by now)⟩

/-- Embedding of `MappingDatabase.get_all_mappings` (database.py lines
147 to 162): all active rows, newest first. -/
def get_all_mappings (db : MappingDatabase) : List MappingRecord :=
  sortDescBy (fun r => r.created_at) (db.rows.filter (fun r => r.is_active))

/-! ### The store operations available to clients, as a step relation -/

/-- The mutating store operations (`create_mapping` is the idempotent
upsert; `verify_mapping` is the human review verdict). -/
inductive StoreOp where
  | create (harvest_user_id harvest_email harvest_name deel_contract_id deel_email
      deel_name match_method : String) (confidence_score : ℚ)
      (match_signals verification_status now : String)
  | verify (harvest_user_id : String) (approved : Bool) (verified_by now : String)

/-- One mutating operation applied to the store. -/
def applyOp (db : MappingDatabase) : StoreOp → MappingDatabase
  | .create a b c d e f g h i j k => create_mapping db a b c d e f g h i j k
  | .verify sid ap vb now => verify_mapping db sid ap vb now

/-- A sequence of mutating operations applied to the store. -/
def runOps (db : MappingDatabase) (ops : List StoreOp) : MappingDatabase :=
  ops.foldl applyOp db

/-- No two rows share a `harvest_user_id` (the UNIQUE constraint). -/
def KeysUnique (db : MappingDatabase) : Prop :=
  db.rows.Pairwise (fun a b => a.harvest_user_id ≠ b.harvest_user_id)

/-- A concrete Harvest user used by witnesses and counterexamples. -/
def cxUser : HarvestUser :=
  ⟨"1", "alice@x.com", "alice", "smith"⟩

/-- A contract whose worker has the same name as `cxUser` but a
different email address: both sides carry an email, yet they differ. -/
def cxContract : DeelContract :=
  ⟨"c1", "alice smith", "in_progress", some ⟨"bob@x.com", "alice smith"⟩⟩

/-- A contract agreeing with `cxUser` on both email and name. -/
def wContract : DeelContract :=
  ⟨"c2", "alice smith", "in_progress", some ⟨"alice@x.com", "alice smith"⟩⟩

/-- An `in_progress` contract unrelated to `cxUser` (no worker object). -/
def farContract : DeelContract :=
  ⟨"c3", "zzz", "in_progress", none⟩

/-- A contract matching `cxUser` perfectly but not `in_progress`. -/
def doneContract : DeelContract :=
  ⟨"c4", "alice smith", "completed", some ⟨"alice@x.com", "alice smith"⟩⟩

/-- A concrete row used by witnesses. -/
def sampleRecord : MappingRecord :=
  mkMappingRecord "7" "ann@x.com" "ann lee" "c9" "ann@x.com" "ann lee"
    "auto_match" (9 / 10) "sig" "needs_review" "t0"

/-! ## Theorems -/

/-! ### Stable descending sort -/

theorem mem_insertDescBy {α β : Type} [LinearOrder β] (key : α → β) (x a : α)
    (l : List α) : a ∈ insertDescBy key x l ↔ a = x ∨ a ∈ l := by
  induction l with
  | nil => simp [insertDescBy]
  | cons y ys ih =>
    simp only [insertDescBy]
    split
    · simp only [List.mem_cons, ih]
      tauto
    · simp [List.mem_cons]

theorem mem_sortDescBy {α β : Type} [LinearOrder β] (key : α → β) (a : α)
    (l : List α) : a ∈ sortDescBy key l ↔ a ∈ l := by
  induction l with
  | nil => simp [sortDescBy]
  | cons x xs ih => simp [sortDescBy, mem_insertDescBy, ih]

theorem insertDescBy_perm {α β : Type} [LinearOrder β] (key : α → β) (x : α)
    (l : List α) : List.Perm (insertDescBy key x l) (x :: l) := by
  induction l with
  | nil => simp [insertDescBy]
  | cons y ys ih =>
    simp only [insertDescBy]
    split
    · exact (ih.cons y).trans (List.Perm.swap x y ys)
    · exact List.Perm.refl _

theorem sortDescBy_perm {α β : Type} [LinearOrder β] (key : α → β)
    (l : List α) : List.Perm (sortDescBy key l) l := by
  induction l with
  | nil => simp [sortDescBy]
  | cons x xs ih => exact (insertDescBy_perm key x _).trans (ih.cons x)

theorem insertDescBy_nil {α β : Type} [LinearOrder β] (key : α → β) (x : α) :
    insertDescBy key x [] = [x] := rfl

theorem insertDescBy_cons {α β : Type} [LinearOrder β] (key : α → β) (x y : α)
    (ys : List α) :
    insertDescBy key x (y :: ys) =
      if key x < key y then y :: insertDescBy key x ys else x :: y :: ys := rfl

theorem sortDescBy_cons {α β : Type} [LinearOrder β] (key : α → β) (x : α)
    (xs : List α) :
    sortDescBy key (x :: xs) = insertDescBy key x (sortDescBy key xs) := rfl

/-- The head of the stable descending sort of a nonempty list is the
first element attaining the maximal key: it bounds every key, and every
element strictly before it in the original list has a strictly smaller
key. -/
theorem sortDescBy_head_spec {α β : Type} [LinearOrder β] (key : α → β)
    (l : List α) (hl : l ≠ []) :
    ∃ h t, sortDescBy key l = h :: t ∧ (∀ z ∈ l, key z ≤ key h) ∧
      ∃ pre post, l = pre ++ h :: post ∧ ∀ z ∈ pre, key z < key h := by
  induction l with
  | nil => exact absurd rfl hl
  | cons x xs ih =>
    cases xs with
    | nil =>
      refine ⟨x, [], rfl, ?_, [], [], rfl, by simp⟩
      intro z hz
      rw [List.mem_singleton] at hz
      rw [hz]
    | cons y ys =>
      obtain ⟨h, t, hsort, hmax, pre, post, hdecomp, hpre⟩ := ih (by simp)
      have hstep : sortDescBy key (x :: y :: ys) = insertDescBy key x (h :: t) := by
        rw [sortDescBy_cons, hsort]
      by_cases hx : key x < key h
      · refine ⟨h, insertDescBy key x t, ?_, ?_, x :: pre, post, ?_, ?_⟩
        · rw [hstep, insertDescBy_cons, if_pos hx]
        · intro z hz
          rw [List.mem_cons] at hz
          rcases hz with rfl | hz
          · exact le_of_lt hx
          · exact hmax z hz
        · rw [List.cons_append, hdecomp]
        · intro z hz
          rw [List.mem_cons] at hz
          rcases hz with rfl | hz
          · exact hx
          · exact hpre z hz
      · refine ⟨x, h :: t, ?_, ?_, [], y :: ys, rfl, by simp⟩
        · rw [hstep, insertDescBy_cons, if_neg hx]
        · intro z hz
          rw [List.mem_cons] at hz
          rcases hz with rfl | hz
          · exact le_refl _
          · exact le_trans (hmax z hz) (not_lt.mp hx)

/-! ### Mapping store lemmas -/

theorem verifyRow_key (sid : String) (ap : Bool) (vb now : String) (r : MappingRecord) :
    (verifyRow sid ap vb now r).harvest_user_id = r.harvest_user_id := by
  unfold verifyRow
  split_ifs <;> rfl

theorem key_survives_applyOp (db : MappingDatabase) (op : StoreOp) (sid : String)
    (h : ∃ r ∈ db.rows, r.harvest_user_id = sid) :
    ∃ r ∈ (applyOp db op).rows, r.harvest_user_id = sid := by
  obtain ⟨r, hr, hk⟩ := h
  cases op with
  | create a b c d e f g q i j k =>
    by_cases ha : a = sid
    · refine ⟨mkMappingRecord a b c d e f g q i j k, ?_, ha⟩
      simp [applyOp, create_mapping]
    · refine ⟨r, ?_, hk⟩
      simp only [applyOp, create_mapping, List.mem_append, List.mem_filter]
      exact Or.inl ⟨hr, by simp [hk, ha, Ne.symm ha]⟩
  | verify s ap vb now =>
    refine ⟨verifyRow s ap vb now r, ?_, by rw [verifyRow_key]; exact hk⟩
    simp only [applyOp, verify_mapping, List.mem_map]
    exact ⟨r, hr, rfl⟩

theorem key_survives_runOps (db : MappingDatabase) (ops : List StoreOp) (sid : String)
    (h : ∃ r ∈ db.rows, r.harvest_user_id = sid) :
    ∃ r ∈ (runOps db ops).rows, r.harvest_user_id = sid := by
  induction ops generalizing db with
  | nil => exact h
  | cons op ops ih => exact ih _ (key_survives_applyOp db op sid h)

/-- Claim C4: a mapping record for a source id is never physically deleted
by any sequence of store operations; an inactive (rejected) record is
excluded from the three active-mapping queries but remains persisted. -/
theorem mapping_rows_never_deleted (db : MappingDatabase) (ops : List StoreOp)
    (sid : String) :
    ((∃ r ∈ db.rows, r.harvest_user_id = sid) →
      ∃ r ∈ (runOps db ops).rows, r.harvest_user_id = sid) ∧
    (∀ r ∈ db.rows, r.is_active = false →
      r ∉ get_all_mappings db ∧ r ∉ get_pending_reviews db) ∧
    ((∀ r ∈ db.rows, r.harvest_user_id = sid → r.is_active = false) →
      get_deel_contract_by_harvest_id db sid = none) := by
  refine ⟨key_survives_runOps db ops sid, ?_, ?_⟩
  · intro r _ hia
    constructor
    · intro hmem
      rw [get_all_mappings, mem_sortDescBy, List.mem_filter] at hmem
      rw [hia] at hmem
      simp at hmem
    · intro hmem
      rw [get_pending_reviews, mem_sortDescBy, List.mem_filter] at hmem
      rw [Bool.and_eq_true, hia] at hmem
      simp at hmem
  · intro h
    have hnone : db.rows.find?
        (fun r => r.harvest_user_id == sid && r.is_active) = none := by
      rw [List.find?_eq_none]
      intro r hr
      rw [Bool.and_eq_true, beq_iff_eq]
      intro ⟨hkey, hact⟩
      rw [h r hr hkey] at hact
      exact Bool.false_ne_true hact
    rw [get_deel_contract_by_harvest_id, hnone]
    rfl

theorem keysUnique_applyOp (db : MappingDatabase) (op : StoreOp)
    (h : KeysUnique db) : KeysUnique (applyOp db op) := by
  cases op with
  | create a b c d e f g q i j k =>
    rw [KeysUnique, applyOp, create_mapping, List.pairwise_append]
    refine ⟨h.sublist (List.filter_sublist _), List.pairwise_singleton _ _, ?_⟩
    intro x hx y hy
    rw [List.mem_filter, bne_iff_ne] at hx
    rw [List.mem_singleton] at hy
    rw [hy]
    exact hx.2
  | verify s ap vb now =>
    rw [KeysUnique, applyOp, verify_mapping, List.pairwise_map]
    exact h.imp (by intro a b hab; rw [verifyRow_key, verifyRow_key]; exact hab)

theorem keysUnique_runOps (db : MappingDatabase) (ops : List StoreOp)
    (h : KeysUnique db) : KeysUnique (runOps db ops) := by
  induction ops generalizing db with
  | nil => exact h
  | cons op ops ih => exact ih _ (keysUnique_applyOp db op h)

/-- Claim C5: starting from the freshly created table, every sequence of
store operations leaves at most one row (hence at most one active row)
per source id; `get_all_mappings` never returns two rows with the same
source id; upserting twice for one source id leaves exactly one row for
it, active, carrying the second upsert's values. -/
theorem at_most_one_active_mapping (ops : List StoreOp) (db : MappingDatabase)
    (sid b1 c1 d1 e1 f1 g1 : String) (q1 : ℚ) (i1 j1 k1 : String)
    (b2 c2 d2 e2 f2 g2 : String) (q2 : ℚ) (i2 j2 k2 : String) :
    KeysUnique (runOps initDatabase ops) ∧
    (KeysUnique db →
      (get_all_mappings db).Pairwise
        (fun a b => a.harvest_user_id ≠ b.harvest_user_id)) ∧
    ((create_mapping (create_mapping db sid b1 c1 d1 e1 f1 g1 q1 i1 j1 k1)
        sid b2 c2 d2 e2 f2 g2 q2 i2 j2 k2).rows.filter
        (fun r => r.harvest_user_id == sid) =
      [mkMappingRecord sid b2 c2 d2 e2 f2 g2 q2 i2 j2 k2]) ∧
    (mkMappingRecord sid b2 c2 d2 e2 f2 g2 q2 i2 j2 k2).is_active = true := by
  refine ⟨keysUnique_runOps _ ops List.Pairwise.nil, ?_, ?_, rfl⟩
  · intro h
    rw [get_all_mappings]
    refine ((sortDescBy_perm _ _).pairwise_iff ?_).mpr
      (h.sublist (List.filter_sublist _))
    intro a b hab
    exact (hab ·.symm)
  · rw [create_mapping, create_mapping]
    simp only [List.filter_append, List.filter_filter]
    rw [List.filter_eq_nil_iff.mpr, List.nil_append]
    · simp [mkMappingRecord]
    · intro r _
      simp only [Bool.and_eq_true, beq_iff_eq, bne_iff_ne]
      intro ⟨h1, h2⟩
      exact h2.1 h1

/-- Claim C6: approving through `verify_mapping` marks the row
`human_verified` and stamps reviewer and time; rejecting marks it
`human_rejected` and inactive, after which no row for that source id
appears in `get_all_mappings` or `get_pending_reviews`. -/
theorem verify_mapping_semantics (db : MappingDatabase) (sid vb now : String) :
    (∀ r ∈ (verify_mapping db sid true vb now).rows, r.harvest_user_id = sid →
      r.verification_status = "human_verified" ∧ r.verified_by = some vb ∧
      r.verified_at = some now) ∧
    (∀ r ∈ (verify_mapping db sid false vb now).rows, r.harvest_user_id = sid →
      r.verification_status = "human_rejected" ∧ r.is_active = false) ∧
    (∀ r ∈ get_all_mappings (verify_mapping db sid false vb now),
      r.harvest_user_id ≠ sid) ∧
    (∀ r ∈ get_pending_reviews (verify_mapping db sid false vb now),
      r.harvest_user_id ≠ sid) := by
  have hrej : ∀ r ∈ (verify_mapping db sid false vb now).rows,
      r.harvest_user_id = sid →
      r.verification_status = "human_rejected" ∧ r.is_active = false := by
    intro r hr hk
    rw [verify_mapping, List.mem_map] at hr
    obtain ⟨r0, _, rfl⟩ := hr
    rw [verifyRow_key] at hk
    rw [verifyRow, if_pos hk, if_neg (Bool.false_ne_true)]
    exact ⟨rfl, rfl⟩
  refine ⟨?_, hrej, ?_, ?_⟩
  · intro r hr hk
    rw [verify_mapping, List.mem_map] at hr
    obtain ⟨r0, _, rfl⟩ := hr
    rw [verifyRow_key] at hk
    rw [verifyRow, if_pos hk, if_pos rfl]
    exact ⟨rfl, rfl, rfl⟩
  · intro r hmem hk
    rw [get_all_mappings, mem_sortDescBy, List.mem_filter] at hmem
    have := (hrej r hmem.1 hk).2
    rw [this] at hmem
    exact Bool.false_ne_true hmem.2
  · intro r hmem hk
    rw [get_pending_reviews, mem_sortDescBy, List.mem_filter, Bool.and_eq_true,
      beq_iff_eq] at hmem
    have := (hrej r hmem.1 hk).1
    rw [this] at hmem
    simp at hmem

/-- Claim C10: an upsert for a source id whose mapping was previously
rejected replaces the rejected row entirely: afterwards exactly one row
exists for that id, it is active again, its verification status is the
status supplied to `create_mapping` (the caller default being
`auto_matched`), and the reviewer stamps are cleared. -/
theorem upsert_after_rejection_resets (db : MappingDatabase) (sid vb now1 : String)
    (b c d e f g : String) (q : ℚ) (i j now2 : String) :
    ((create_mapping (verify_mapping db sid false vb now1)
        sid b c d e f g q i j now2).rows.filter
        (fun r => r.harvest_user_id == sid) =
      [mkMappingRecord sid b c d e f g q i j now2]) ∧
    (mkMappingRecord sid b c d e f g q i j now2).is_active = true ∧
    (mkMappingRecord sid b c d e f g q i j now2).verification_status = j ∧
    (mkMappingRecord sid b c d e f g q i j now2).verified_by = none ∧
    (mkMappingRecord sid b c d e f g q i j now2).verified_at = none := by
  refine ⟨?_, rfl, rfl, rfl, rfl⟩
  rw [create_mapping]
  simp only [List.filter_append, List.filter_filter]
  rw [List.filter_eq_nil_iff.mpr, List.nil_append]
  · simp [mkMappingRecord]
  · intro r _
    simp only [Bool.and_eq_true, beq_iff_eq, bne_iff_ne]
    intro ⟨h1, h2⟩
    exact h2 h1

/-- Witness for claim C4 at a concrete store and operation sequence. -/
theorem mapping_rows_never_deleted_witness :
    ∃ r ∈ (runOps ⟨[sampleRecord]⟩ [StoreOp.verify "7" false "rev" "t1"]).rows,
      r.harvest_user_id = "7" :=
  (mapping_rows_never_deleted ⟨[sampleRecord]⟩
    [StoreOp.verify "7" false "rev" "t1"] "7").1
    ⟨sampleRecord, by simp, rfl⟩

/-- Witness for claim C5 at a concrete store. -/
theorem at_most_one_active_mapping_witness :
    (get_all_mappings ⟨[sampleRecord]⟩).Pairwise
      (fun a b => a.harvest_user_id ≠ b.harvest_user_id) :=
  (at_most_one_active_mapping [] ⟨[sampleRecord]⟩ "7" "" "" "" "" "" "" 0 "" "" ""
    "" "" "" "" "" "" 0 "" "" "").2.1 (List.pairwise_singleton _ _)

/-! ### Matcher lemmas: the signal fields of `match_user` -/

theorem match_user_email_match_eq (F : FuzzAlgs) (M : UserMatcher)
    (hu : HarvestUser) (dc : DeelContract) :
    (match_user F M hu dc).email_match =
      (email_signal (normalize_email hu.email)
        (normalize_email (dc.worker.getD emptyWorker).email)).1 := rfl

theorem match_user_name_similarity_eq (F : FuzzAlgs) (M : UserMatcher)
    (hu : HarvestUser) (dc : DeelContract) :
    (match_user F M hu dc).name_similarity =
      (best_name_pick
        (compute_name_similarity F (hu.first_name ++ " " ++ hu.last_name) dc.title)
        (compute_name_similarity F (hu.first_name ++ " " ++ hu.last_name)
          (dc.worker.getD emptyWorker).full_name)).1 := rfl

theorem match_user_confidence_eq (F : FuzzAlgs) (M : UserMatcher)
    (hu : HarvestUser) (dc : DeelContract) :
    (match_user F M hu dc).confidence =
      ((match_user F M hu dc).email_match *
          (email_signal (normalize_email hu.email)
            (normalize_email (dc.worker.getD emptyWorker).email)).2 +
        (match_user F M hu dc).name_similarity * 5) /
      ((email_signal (normalize_email hu.email)
          (normalize_email (dc.worker.getD emptyWorker).email)).2 + 5) := rfl

theorem match_user_decision_eq (F : FuzzAlgs) (M : UserMatcher)
    (hu : HarvestUser) (dc : DeelContract) :
    (match_user F M hu dc).decision =
      if 95 / 100 ≤ (match_user F M hu dc).name_similarity then "auto_accept"
      else if M.auto_accept ≤ (match_user F M hu dc).confidence then "auto_accept"
      else if M.review_threshold ≤ (match_user F M hu dc).confidence then "needs_review"
      else "auto_reject" := rfl

theorem email_signal_pos (he de : String) (h : he ≠ "" ∧ de ≠ "" ∧ he = de) :
    email_signal he de = (1, 5) := by
  unfold email_signal
  exact if_pos h

theorem email_signal_neg (he de : String) (h : ¬(he ≠ "" ∧ de ≠ "" ∧ he = de)) :
    email_signal he de = (0, 1 / 2) := by
  unfold email_signal
  exact if_neg h

/-- Claim C1 (amended): the blended confidence uses email weight 5
exactly when both normalized emails are present and equal, giving
`(1*5 + name*5)/10`; in every other case — the email absent on either
side or the two emails unequal — the email signal is `0.0` and
contributes at the reduced weight 0.5, giving `(0*0.5 + name*5)/5.5`. -/
theorem match_user_confidence_formula (F : FuzzAlgs) (M : UserMatcher)
    (hu : HarvestUser) (dc : DeelContract) :
    (normalize_email hu.email ≠ "" ∧
        normalize_email (dc.worker.getD emptyWorker).email ≠ "" ∧
        normalize_email hu.email =
          normalize_email (dc.worker.getD emptyWorker).email →
      (match_user F M hu dc).email_match = 1 ∧
      (match_user F M hu dc).confidence =
        ((match_user F M hu dc).email_match * 5 +
          (match_user F M hu dc).name_similarity * 5) / 10) ∧
    (¬(normalize_email hu.email ≠ "" ∧
        normalize_email (dc.worker.getD emptyWorker).email ≠ "" ∧
        normalize_email hu.email =
          normalize_email (dc.worker.getD emptyWorker).email) →
      (match_user F M hu dc).email_match = 0 ∧
      (match_user F M hu dc).confidence =
        (0 * (1 / 2) + (match_user F M hu dc).name_similarity * 5) / (11 / 2)) := by
  constructor <;> intro h
  · have e := email_signal_pos _ _ h
    have h1 : (match_user F M hu dc).email_match = 1 := by
      rw [match_user_email_match_eq, e]
    refine ⟨h1, ?_⟩
    rw [match_user_confidence_eq, e, h1]
    norm_num
  · have e := email_signal_neg _ _ h
    have h0 : (match_user F M hu dc).email_match = 0 := by
      rw [match_user_email_match_eq, e]
    refine ⟨h0, ?_⟩
    rw [match_user_confidence_eq, e, h0]
    norm_num

/-! ### Concrete matcher evaluations used by witnesses -/

theorem normalize_name_alice : normalize_name "alice smith" = "alice smith" := rfl

theorem harvest_name_cxUser :
    ("alice" ++ " " ++ "smith" : String) = "alice smith" := rfl

theorem email_signal_cxContract :
    email_signal (normalize_email "alice@x.com") (normalize_email "bob@x.com") =
      (0, 1 / 2) := by
  rw [email_signal, if_neg]
  decide

theorem email_signal_wContract :
    email_signal (normalize_email "alice@x.com") (normalize_email "alice@x.com") =
      (1, 5) := by
  rw [email_signal, if_pos]
  decide

theorem compute_name_similarity_alice :
    compute_name_similarity fuzzExact "alice smith" "alice smith" = 1 := by
  simp only [compute_name_similarity, normalize_name_alice, fuzzExact]
  rw [if_neg (by decide)]
  norm_num

theorem match_cx_eval : match_user fuzzExact defaultMatcher cxUser cxContract =
    ⟨"1", "c1", 10 / 11, 0, 1, "title", "auto_accept"⟩ := by
  simp only [match_user, cxUser, cxContract, emptyWorker, defaultMatcher, Option.getD,
    harvest_name_cxUser, email_signal_cxContract, compute_name_similarity_alice,
    best_name_pick]
  norm_num

theorem match_w_eval : match_user fuzzExact defaultMatcher cxUser wContract =
    ⟨"1", "c2", 1, 1, 1, "title", "auto_accept"⟩ := by
  simp only [match_user, cxUser, wContract, emptyWorker, defaultMatcher, Option.getD,
    harvest_name_cxUser, email_signal_wContract, compute_name_similarity_alice,
    best_name_pick]
  norm_num

/-- Claim C1 as stated is false on the code: here both sides carry an
email (they differ), yet the confidence is `(0*0.5 + 1*5)/5.5 = 10/11`,
not the claimed equal-weight mean `(0*5 + 1*5)/10 = 1/2`. -/
theorem match_user_confidence_formula_cx :
    normalize_email cxUser.email ≠ "" ∧
    normalize_email ((cxContract.worker.getD emptyWorker).email) ≠ "" ∧
    (match_user fuzzExact defaultMatcher cxUser cxContract).confidence ≠
      ((match_user fuzzExact defaultMatcher cxUser cxContract).email_match * 5 +
        (match_user fuzzExact defaultMatcher cxUser cxContract).name_similarity * 5) /
        10 := by
  refine ⟨by decide, by decide, ?_⟩
  rw [match_cx_eval]
  norm_num

/-- Witness for claim C1 (amended), matching-email branch, at concrete
inputs. -/
theorem match_user_confidence_formula_witness :
    (match_user fuzzExact defaultMatcher cxUser wContract).email_match = 1 ∧
    (match_user fuzzExact defaultMatcher cxUser wContract).confidence =
      ((match_user fuzzExact defaultMatcher cxUser wContract).email_match * 5 +
        (match_user fuzzExact defaultMatcher cxUser wContract).name_similarity * 5) /
        10 :=
  (match_user_confidence_formula fuzzExact defaultMatcher cxUser wContract).1
    ⟨by decide, by decide, by decide⟩

/-- Claim C2: the decision rules apply in order — name similarity at or
above 0.95 forces `auto_accept` whatever the thresholds; otherwise the
blended confidence is compared against the two configured thresholds;
in particular an exact email match plus name similarity at or above
0.95 always yields `auto_accept`. -/
theorem match_user_decision_policy (F : FuzzAlgs) (M : UserMatcher)
    (hu : HarvestUser) (dc : DeelContract) :
    (95 / 100 ≤ (match_user F M hu dc).name_similarity →
      (match_user F M hu dc).decision = "auto_accept") ∧
    ((match_user F M hu dc).name_similarity < 95 / 100 →
      M.auto_accept ≤ (match_user F M hu dc).confidence →
      (match_user F M hu dc).decision = "auto_accept") ∧
    ((match_user F M hu dc).name_similarity < 95 / 100 →
      (match_user F M hu dc).confidence < M.auto_accept →
      M.review_threshold ≤ (match_user F M hu dc).confidence →
      (match_user F M hu dc).decision = "needs_review") ∧
    ((match_user F M hu dc).name_similarity < 95 / 100 →
      (match_user F M hu dc).confidence < M.auto_accept →
      (match_user F M hu dc).confidence < M.review_threshold →
      (match_user F M hu dc).decision = "auto_reject") ∧
    (normalize_email hu.email ≠ "" ∧
        normalize_email (dc.worker.getD emptyWorker).email ≠ "" ∧
        normalize_email hu.email =
          normalize_email (dc.worker.getD emptyWorker).email →
      95 / 100 ≤ (match_user F M hu dc).name_similarity →
      (match_user F M hu dc).decision = "auto_accept") := by
  refine ⟨?_, ?_, ?_, ?_, ?_⟩
  · intro h
    rw [match_user_decision_eq, if_pos h]
  · intro h0 h1
    rw [match_user_decision_eq, if_neg (not_le.mpr h0), if_pos h1]
  · intro h0 h1 h2
    rw [match_user_decision_eq, if_neg (not_le.mpr h0), if_neg (not_le.mpr h1),
      if_pos h2]
  · intro h0 h1 h2
    rw [match_user_decision_eq, if_neg (not_le.mpr h0), if_neg (not_le.mpr h1),
      if_neg (not_le.mpr h2)]
  · intro _ h
    rw [match_user_decision_eq, if_pos h]

/-- Witness for claim C2: an exact email match with identical names is
accepted. -/
theorem match_user_decision_policy_witness :
    (match_user fuzzExact defaultMatcher cxUser wContract).decision =
      "auto_accept" :=
  (match_user_decision_policy fuzzExact defaultMatcher cxUser wContract).2.2.2.2
    ⟨by decide, by decide, by decide⟩ (by rw [match_w_eval]; norm_num)

/-! ### Confidence bounds -/

theorem compute_name_similarity_range (F : FuzzAlgs) (hF : FuzzInRange F)
    (a b : String) :
    0 ≤ compute_name_similarity F a b ∧ compute_name_similarity F a b ≤ 1 := by
  simp only [compute_name_similarity]
  split
  · norm_num
  · obtain ⟨h1, h2, h3, h4⟩ := hF (normalize_name a) (normalize_name b)
    constructor
    · exact le_sup_of_le_left (le_sup_of_le_left
        (le_sup_of_le_left (div_nonneg h1.1 (by norm_num))))
    · refine max_le (max_le (max_le ?_ ?_) ?_) ?_ <;>
        rw [div_le_one (by norm_num : (0 : ℚ) < 100)]
      exacts [h1.2, h2.2, h3.2, h4.2]

theorem match_user_name_similarity_range (F : FuzzAlgs) (M : UserMatcher)
    (hu : HarvestUser) (dc : DeelContract) (hF : FuzzInRange F) :
    0 ≤ (match_user F M hu dc).name_similarity ∧
    (match_user F M hu dc).name_similarity ≤ 1 := by
  rw [match_user_name_similarity_eq]
  unfold best_name_pick
  split
  · exact compute_name_similarity_range F hF _ _
  · exact compute_name_similarity_range F hF _ _

/-- Claim C7: whenever the library scorers return values in their
documented range, the blended confidence lies in the unit interval,
whichever email weight the code selects. -/
theorem match_user_confidence_in_unit_interval (F : FuzzAlgs) (M : UserMatcher)
    (hu : HarvestUser) (dc : DeelContract) (hF : FuzzInRange F) :
    0 ≤ (match_user F M hu dc).confidence ∧
    (match_user F M hu dc).confidence ≤ 1 := by
  obtain ⟨hn0, hn1⟩ := match_user_name_similarity_range F M hu dc hF
  by_cases h : normalize_email hu.email ≠ "" ∧
      normalize_email (dc.worker.getD emptyWorker).email ≠ "" ∧
      normalize_email hu.email = normalize_email (dc.worker.getD emptyWorker).email
  · obtain ⟨he, hc⟩ := (match_user_confidence_formula F M hu dc).1 h
    rw [hc, he]
    refine ⟨div_nonneg (by linarith) (by norm_num), ?_⟩
    rw [div_le_one (by norm_num)]
    linarith
  · obtain ⟨he, hc⟩ := (match_user_confidence_formula F M hu dc).2 h
    rw [hc]
    refine ⟨div_nonneg (by linarith) (by norm_num), ?_⟩
    rw [div_le_one (by norm_num)]
    linarith

/-! ### Best-match selection -/

/-- Claim C3: `find_best_match` filters candidates to `in_progress`
status, returns no match when none remain (in particular on an empty
candidate list), and otherwise scores every remaining candidate and
returns the first highest-confidence result — stable order, ties broken
by original candidate position — unless that result's decision is
`auto_reject`, in which case it returns no match. -/
theorem find_best_match_spec (F : FuzzAlgs) (M : UserMatcher) (hu : HarvestUser)
    (cs : List DeelContract) :
    (cs = [] → find_best_match F M hu cs = none) ∧
    (cs.filter (fun c => c.status == "in_progress") = [] →
      find_best_match F M hu cs = none) ∧
    (cs.filter (fun c => c.status == "in_progress") ≠ [] →
      ∃ b, b ∈ (cs.filter (fun c => c.status == "in_progress")).map
          (match_user F M hu) ∧
        (∀ z ∈ (cs.filter (fun c => c.status == "in_progress")).map
            (match_user F M hu), z.confidence ≤ b.confidence) ∧
        (∃ pre post,
          (cs.filter (fun c => c.status == "in_progress")).map (match_user F M hu) =
            pre ++ b :: post ∧ ∀ z ∈ pre, z.confidence < b.confidence) ∧
        find_best_match F M hu cs =
          if b.decision = "auto_reject" then none else some b) := by
  refine ⟨?_, ?_, ?_⟩
  · intro h
    subst h
    rfl
  · intro h
    simp [find_best_match, h]
  · intro h
    have hms : (cs.filter (fun c => c.status == "in_progress")).map
        (match_user F M hu) ≠ [] := by
      simp only [ne_eq, List.map_eq_nil_iff]
      exact h
    obtain ⟨b, t, hsort, hmax, pre, post, hdecomp, hpre⟩ :=
      sortDescBy_head_spec (fun m : MatchResult => m.confidence) _ hms
    refine ⟨b, ?_, hmax, ⟨pre, post, hdecomp, hpre⟩, ?_⟩
    · rw [hdecomp]
      exact List.mem_append_right _ (List.mem_cons_self _ _)
    · simp only [find_best_match]
      rw [if_neg h, hsort]

/-- Witness for claim C3: empty candidates, fully filtered candidates,
and a scored nonempty candidate list, all at concrete inputs. -/
theorem find_best_match_spec_witness :
    find_best_match fuzzExact defaultMatcher cxUser [] = none ∧
    find_best_match fuzzExact defaultMatcher cxUser [doneContract] = none ∧
    (∃ b, b ∈ ([cxContract].filter (fun c => c.status == "in_progress")).map
        (match_user fuzzExact defaultMatcher cxUser) ∧
      (∀ z ∈ ([cxContract].filter (fun c => c.status == "in_progress")).map
          (match_user fuzzExact defaultMatcher cxUser),
        z.confidence ≤ b.confidence) ∧
      (∃ pre post,
        ([cxContract].filter (fun c => c.status == "in_progress")).map
            (match_user fuzzExact defaultMatcher cxUser) = pre ++ b :: post ∧
          ∀ z ∈ pre, z.confidence < b.confidence) ∧
      find_best_match fuzzExact defaultMatcher cxUser [cxContract] =
        if b.decision = "auto_reject" then none else some b) :=
  ⟨(find_best_match_spec fuzzExact defaultMatcher cxUser []).1 rfl,
   (find_best_match_spec fuzzExact defaultMatcher cxUser [doneContract]).2.1
     (by decide),
   (find_best_match_spec fuzzExact defaultMatcher cxUser [cxContract]).2.2
     (by decide)⟩

/-- Witness for claim C7 at concrete inputs (the exact-match scorer
satisfies the range guarantee). -/
theorem match_user_confidence_in_unit_interval_witness :
    0 ≤ (match_user fuzzExact defaultMatcher cxUser cxContract).confidence ∧
    (match_user fuzzExact defaultMatcher cxUser cxContract).confidence ≤ 1 :=
  match_user_confidence_in_unit_interval fuzzExact defaultMatcher cxUser cxContract
    (by
      intro a b
      refine ⟨⟨?_, ?_⟩, ⟨?_, ?_⟩, ⟨?_, ?_⟩, ⟨?_, ?_⟩⟩ <;>
        simp only [fuzzExact] <;> split <;> norm_num)

/-- Witness for claim C6 at a concrete store: the approved row. -/
theorem verify_mapping_semantics_witness :
    (verifyRow "7" true "rev" "t1" sampleRecord).verification_status =
      "human_verified" ∧
    (verifyRow "7" true "rev" "t1" sampleRecord).verified_by = some "rev" ∧
    (verifyRow "7" true "rev" "t1" sampleRecord).verified_at = some "t1" :=
  (verify_mapping_semantics ⟨[sampleRecord]⟩ "7" "rev" "t1").1
    (verifyRow "7" true "rev" "t1" sampleRecord) (by simp [verify_mapping])
    (by rw [verifyRow_key]; rfl)

/-! ### Name-normalization lemmas -/

theorem bool_not_true {b : Bool} (h : ¬(b = true)) : b = false := by
  cases b
  · rfl
  · exact absurd rfl h

theorem beq_false_of_ne {c d : Char} (h : c ≠ d) : (c == d) = false := by
  cases hb : c == d
  · rfl
  · exact absurd (eq_of_beq hb) h

theorem toLower_eq_ite (c : Char) :
    Char.toLower c =
      if 65 ≤ c.toNat ∧ c.toNat ≤ 90 then Char.ofNat (c.toNat + 32) else c := rfl

theorem toLower_not_upper (c : Char) :
    ¬(65 ≤ (Char.toLower c).toNat ∧ (Char.toLower c).toNat ≤ 90) := by
  rw [toLower_eq_ite]
  split_ifs with h
  · obtain ⟨h1, h2⟩ := h
    generalize hg : c.toNat = n at h1 h2 ⊢
    interval_cases n <;> decide
  · exact h

theorem toLower_eq_self (c : Char) (h : ¬(65 ≤ c.toNat ∧ c.toNat ≤ 90)) :
    Char.toLower c = c := by
  rw [toLower_eq_ite]
  exact if_neg h

theorem head?_dropWhile_false {α : Type} (p : α → Bool) (l : List α) (c : α)
    (h : (l.dropWhile p).head? = some c) : p c = false := by
  induction l with
  | nil => simp [List.dropWhile] at h
  | cons a as ih =>
    rw [List.dropWhile_cons] at h
    by_cases hp : p a = true
    · rw [if_pos hp] at h
      exact ih h
    · rw [if_neg hp, List.head?_cons] at h
      obtain rfl := Option.some.inj h
      exact bool_not_true hp

theorem dropWhile_suffix {α : Type} (p : α → Bool) (l : List α) :
    ∃ s, l = s ++ l.dropWhile p :=
  ⟨l.takeWhile p, (List.takeWhile_append_dropWhile p l).symm⟩

theorem dropWhile_eq_self_of_head {α : Type} (p : α → Bool) (l : List α)
    (h : ∀ c, l.head? = some c → p c = false) : l.dropWhile p = l := by
  cases l with
  | nil => rfl
  | cons a as =>
    have ha := h a rfl
    rw [List.dropWhile_cons, ha, if_neg Bool.false_ne_true]

theorem mem_pyStrip (x : List Char) (c : Char) (h : c ∈ pyStrip x) : c ∈ x := by
  rw [pyStrip, List.mem_reverse] at h
  have h2 := (List.dropWhile_sublist _).subset h
  rw [List.mem_reverse] at h2
  exact (List.dropWhile_sublist _).subset h2

theorem pyStrip_head (x : List Char) (c : Char)
    (h : (pyStrip x).head? = some c) : isPySpace c = false := by
  obtain ⟨s, hs⟩ := dropWhile_suffix isPySpace ((x.dropWhile isPySpace).reverse)
  have hC : x.dropWhile isPySpace = pyStrip x ++ s.reverse := by
    calc x.dropWhile isPySpace
        = (x.dropWhile isPySpace).reverse.reverse := (List.reverse_reverse _).symm
      _ = (s ++ ((x.dropWhile isPySpace).reverse.dropWhile isPySpace)).reverse := by
          rw [← hs]
      _ = pyStrip x ++ s.reverse := by rw [List.reverse_append, pyStrip]
  have h2 : (x.dropWhile isPySpace).head? = some c := by
    rw [hC]
    cases hrev : pyStrip x with
    | nil => rw [hrev] at h; simp at h
    | cons d rest =>
      rw [hrev, List.head?_cons] at h
      obtain rfl := Option.some.inj h
      rw [List.cons_append, List.head?_cons]
  exact head?_dropWhile_false isPySpace x c h2

theorem pyStrip_last (x : List Char) (c : Char)
    (h : (pyStrip x).reverse.head? = some c) : isPySpace c = false := by
  rw [pyStrip, List.reverse_reverse] at h
  exact head?_dropWhile_false isPySpace _ c h

theorem pyStrip_eq_self (x : List Char)
    (hh : ∀ c, x.head? = some c → isPySpace c = false)
    (hl : ∀ c, x.reverse.head? = some c → isPySpace c = false) :
    pyStrip x = x := by
  rw [pyStrip, dropWhile_eq_self_of_head _ _ hh, dropWhile_eq_self_of_head _ _ hl,
    List.reverse_reverse]

theorem collapseWsAux_cons (b : Bool) (a : Char) (as : List Char) :
    collapseWsAux b (a :: as) =
      if isPySpace a then
        (if b then collapseWsAux true as else ' ' :: collapseWsAux true as)
      else a :: collapseWsAux false as := rfl

theorem mem_collapseWsAux (x : List Char) (b : Bool) (c : Char)
    (h : c ∈ collapseWsAux b x) : (c ∈ x ∧ isPySpace c = false) ∨ c = ' ' := by
  induction x generalizing b with
  | nil => simp [collapseWsAux] at h
  | cons a as ih =>
    rw [collapseWsAux_cons] at h
    by_cases hws : isPySpace a = true
    · rw [if_pos hws] at h
      by_cases hb : b = true
      · rw [if_pos hb] at h
        rcases ih true h with ⟨hm, hns⟩ | hsp
        · exact Or.inl ⟨List.mem_cons_of_mem a hm, hns⟩
        · exact Or.inr hsp
      · rw [if_neg hb] at h
        rcases List.mem_cons.mp h with rfl | h2
        · exact Or.inr rfl
        · rcases ih true h2 with ⟨hm, hns⟩ | hsp
          · exact Or.inl ⟨List.mem_cons_of_mem a hm, hns⟩
          · exact Or.inr hsp
    · rw [if_neg hws] at h
      rcases List.mem_cons.mp h with rfl | h2
      · exact Or.inl ⟨List.mem_cons_self _ _, bool_not_true hws⟩
      · rcases ih false h2 with ⟨hm, hns⟩ | hsp
        · exact Or.inl ⟨List.mem_cons_of_mem a hm, hns⟩
        · exact Or.inr hsp

theorem noDblSpace_cons_cons (a d : Char) (ds : List Char) :
    noDblSpace (a :: d :: ds) =
      (!(a == ' ' && d == ' ') && noDblSpace (d :: ds)) := rfl

theorem noDblSpace_cons_of_ne (a : Char) (z : List Char) (ha : a ≠ ' ')
    (hz : noDblSpace z = true) : noDblSpace (a :: z) = true := by
  cases z with
  | nil => rfl
  | cons d ds =>
    rw [noDblSpace_cons_cons, beq_false_of_ne ha, Bool.false_and, Bool.not_false,
      Bool.true_and]
    exact hz

theorem noDblSpace_tail (a : Char) (z : List Char)
    (h : noDblSpace (a :: z) = true) : noDblSpace z = true := by
  cases z with
  | nil => rfl
  | cons d ds =>
    rw [noDblSpace_cons_cons, Bool.and_eq_true] at h
    exact h.2

theorem collapse_shape (x : List Char) :
    noDblSpace (collapseWsAux false x) = true ∧
    noDblSpace (collapseWsAux true x) = true ∧
    ∀ c, (collapseWsAux true x).head? = some c → isPySpace c = false := by
  induction x with
  | nil =>
    refine ⟨rfl, rfl, ?_⟩
    intro c h
    simp [collapseWsAux] at h
  | cons a as ih =>
    obtain ⟨ihf, iht, ihh⟩ := ih
    by_cases hws : isPySpace a = true
    · have e1 : collapseWsAux false (a :: as) = ' ' :: collapseWsAux true as := by
        rw [collapseWsAux_cons, if_pos hws, if_neg Bool.false_ne_true]
      have e2 : collapseWsAux true (a :: as) = collapseWsAux true as := by
        rw [collapseWsAux_cons, if_pos hws, if_pos rfl]
      refine ⟨?_, by rw [e2]; exact iht, by rw [e2]; exact ihh⟩
      rw [e1]
      cases hX : collapseWsAux true as with
      | nil => rfl
      | cons d ds =>
        have hd : isPySpace d = false := ihh d (by rw [hX]; rfl)
        have hdne : d ≠ ' ' := by
          intro hdq
          rw [hdq] at hd
          exact absurd hd (by decide)
        rw [noDblSpace_cons_cons, beq_false_of_ne hdne, Bool.and_false,
          Bool.not_false, Bool.true_and, ← hX]
        exact iht
    · have hws' : isPySpace a = false := bool_not_true hws
      have hane : a ≠ ' ' := by
        intro haq
        rw [haq] at hws'
        exact absurd hws' (by decide)
      have e : ∀ b, collapseWsAux b (a :: as) = a :: collapseWsAux false as := by
        intro b
        rw [collapseWsAux_cons, if_neg hws]
      refine ⟨?_, ?_, ?_⟩
      · rw [e false]
        exact noDblSpace_cons_of_ne a _ hane ihf
      · rw [e true]
        exact noDblSpace_cons_of_ne a _ hane ihf
      · intro c h
        rw [e true, List.head?_cons] at h
        obtain rfl := Option.some.inj h
        exact hws'

theorem collapseWsAux_eq_self (z : List Char)
    (hws : ∀ c ∈ z, isPySpace c = true → c = ' ')
    (hnd : noDblSpace z = true) :
    collapseWsAux false z = z ∧
    ((∀ c, z.head? = some c → c ≠ ' ') → collapseWsAux true z = z) := by
  induction z with
  | nil => exact ⟨rfl, fun _ => rfl⟩
  | cons a as ih =>
    have hndt : noDblSpace as = true := noDblSpace_tail a as hnd
    have hwst : ∀ c ∈ as, isPySpace c = true → c = ' ' :=
      fun c hc => hws c (List.mem_cons_of_mem a hc)
    obtain ⟨ihf, iht⟩ := ih hwst hndt
    by_cases ha : isPySpace a = true
    · have haq : a = ' ' := hws a (List.mem_cons_self a as) ha
      subst haq
      have hhead : ∀ c, as.head? = some c → c ≠ ' ' := by
        intro c hc hceq
        subst hceq
        cases as with
        | nil => simp at hc
        | cons d ds =>
          rw [List.head?_cons] at hc
          obtain rfl := Option.some.inj hc
          rw [noDblSpace_cons_cons, Bool.and_eq_true] at hnd
          exact absurd hnd.1 (by decide)
      constructor
      · rw [collapseWsAux_cons, if_pos (show isPySpace ' ' = true from rfl),
          if_neg Bool.false_ne_true, iht hhead]
      · intro hcontr
        exact absurd rfl (hcontr ' ' rfl)
    · constructor
      · rw [collapseWsAux_cons, if_neg ha, ihf]
      · intro _
        rw [collapseWsAux_cons, if_neg ha, ihf]

theorem collapseWsAux_snoc (x : List Char) (b : Bool) (c : Char)
    (hc : isPySpace c = false) :
    ∃ y, collapseWsAux b (x ++ [c]) = y ++ [c] := by
  induction x generalizing b with
  | nil =>
    refine ⟨[], ?_⟩
    rw [List.nil_append, collapseWsAux_cons,
      if_neg (by rw [hc]; exact Bool.false_ne_true)]
    rfl
  | cons a as ih =>
    rw [List.cons_append, collapseWsAux_cons]
    by_cases hws : isPySpace a = true
    · rw [if_pos hws]
      by_cases hb : b = true
      · rw [if_pos hb]
        exact ih true
      · rw [if_neg hb]
        obtain ⟨y, hy⟩ := ih true
        exact ⟨' ' :: y, by rw [hy, List.cons_append]⟩
    · rw [if_neg hws]
      obtain ⟨y, hy⟩ := ih false
      exact ⟨a :: y, by rw [hy, List.cons_append]⟩

theorem collapseWsAux_head (x : List Char) (c : Char) (hx : x.head? = some c)
    (hc : isPySpace c = false) : (collapseWsAux false x).head? = some c := by
  cases x with
  | nil => simp at hx
  | cons a as =>
    rw [List.head?_cons] at hx
    obtain rfl := Option.some.inj hx
    rw [collapseWsAux_cons, if_neg (by rw [hc]; exact Bool.false_ne_true),
      List.head?_cons]

/-! ### The alphabet of normalized names -/

theorem canon_normalizeChars (l : List Char) :
    ∀ c ∈ normalizeChars l, canonChar c = true := by
  intro c h
  rw [normalizeChars] at h
  split at h
  · exact absurd h (List.not_mem_nil c)
  · rw [List.mem_filter] at h
    obtain ⟨hmem, hk⟩ := h
    rw [collapseWs] at hmem
    rcases mem_collapseWsAux _ _ _ hmem with ⟨hm, hns⟩ | hsp
    · have hm2 : c ∈ (l.flatMap asciiFold).map Char.toLower := mem_pyStrip _ _ hm
      obtain ⟨d, _, rfl⟩ := List.mem_map.mp hm2
      have hnu := toLower_not_upper d
      rw [keepWordChar, Bool.or_eq_true, Bool.or_eq_true, isWordChar,
        decide_eq_true_eq] at hk
      rw [canonChar, decide_eq_true_eq]
      rcases hk with ((h1 | h1 | h1 | h1) | hws) | hd
      · exact Or.inl h1
      · exact absurd h1 hnu
      · exact Or.inr (Or.inl h1)
      · exact Or.inr (Or.inr (Or.inr (Or.inr h1)))
      · rw [hws] at hns
        exact absurd hns (by decide)
      · exact Or.inr (Or.inr (Or.inr (Or.inl (eq_of_beq hd))))
    · rw [hsp]
      decide

theorem canonChar_ascii (c : Char) (h : canonChar c = true) : c.toNat < 128 := by
  rw [canonChar, decide_eq_true_eq] at h
  rcases h with h | h | rfl | rfl | rfl
  · omega
  · omega
  · decide
  · decide
  · decide

theorem canonChar_not_upper (c : Char) (h : canonChar c = true) :
    ¬(65 ≤ c.toNat ∧ c.toNat ≤ 90) := by
  rw [canonChar, decide_eq_true_eq] at h
  rcases h with h | h | rfl | rfl | rfl
  · omega
  · omega
  · decide
  · decide
  · decide

theorem canonChar_ws (c : Char) (h : canonChar c = true)
    (hws : isPySpace c = true) : c = ' ' := by
  rw [isPySpace, decide_eq_true_eq] at hws
  rcases hws with rfl | rfl | rfl | rfl | rfl | rfl
  · rfl
  · exact absurd h (by decide)
  · exact absurd h (by decide)
  · exact absurd h (by decide)
  · exact absurd h (by decide)
  · exact absurd h (by decide)

theorem canonChar_keep (c : Char) (h : canonChar c = true) :
    keepWordChar c = true := by
  rw [canonChar, decide_eq_true_eq] at h
  rw [keepWordChar, Bool.or_eq_true, Bool.or_eq_true, isWordChar,
    decide_eq_true_eq]
  rcases h with h | h | rfl | rfl | rfl
  · exact Or.inl (Or.inl (Or.inl h))
  · exact Or.inl (Or.inl (Or.inr (Or.inr (Or.inl h))))
  · exact Or.inl (Or.inr rfl)
  · exact Or.inr rfl
  · exact Or.inl (Or.inl (Or.inr (Or.inr (Or.inr rfl))))

theorem asciiFold_ascii (c : Char) (h : c.toNat < 128) : asciiFold c = [c] := by
  unfold asciiFold
  exact if_pos h

theorem flatMap_asciiFold_eq_self (z : List Char) (h : ∀ c ∈ z, c.toNat < 128) :
    z.flatMap asciiFold = z := by
  induction z with
  | nil => rfl
  | cons a as ih =>
    rw [List.flatMap_cons, asciiFold_ascii a (h a (List.mem_cons_self _ _)),
      ih (fun c hc => h c (List.mem_cons_of_mem a hc)), List.singleton_append]

theorem map_toLower_eq_self (z : List Char)
    (h : ∀ c ∈ z, ¬(65 ≤ c.toNat ∧ c.toNat ≤ 90)) :
    z.map Char.toLower = z := by
  induction z with
  | nil => rfl
  | cons a as ih =>
    rw [List.map_cons, toLower_eq_self a (h a (List.mem_cons_self _ _)),
      ih (fun c hc => h c (List.mem_cons_of_mem a hc))]

/-- On input that is already over the canonical alphabet, the NFKD and
lowercasing stages are the identity and the final filter keeps every
character, so normalization reduces to strip-then-collapse. -/
theorem normalizeChars_on_canon (z : List Char)
    (h : ∀ c ∈ z, canonChar c = true) :
    normalizeChars z = collapseWs (pyStrip z) ∨ z = [] := by
  by_cases hz : z = []
  · exact Or.inr hz
  · left
    rw [normalizeChars, if_neg hz,
      flatMap_asciiFold_eq_self z (fun c hc => canonChar_ascii c (h c hc)),
      map_toLower_eq_self z (fun c hc => canonChar_not_upper c (h c hc)),
      List.filter_eq_self.mpr]
    intro a ha
    rw [collapseWs] at ha
    rcases mem_collapseWsAux _ _ _ ha with ⟨hm, _⟩ | hsp
    · exact canonChar_keep a (h a (mem_pyStrip _ _ hm))
    · rw [hsp]
      decide

/-- Normalizing the strip-then-collapse of a canonical-alphabet string
changes nothing: its head and last characters are not whitespace, it has
no doubled spaces, and its characters all survive every stage. -/
theorem collapse_strip_canonical (z : List Char)
    (h : ∀ c ∈ z, canonChar c = true) :
    normalizeChars (collapseWs (pyStrip z)) = collapseWs (pyStrip z) := by
  have hcanon : ∀ c ∈ collapseWs (pyStrip z), canonChar c = true := by
    intro c hc
    rw [collapseWs] at hc
    rcases mem_collapseWsAux _ _ _ hc with ⟨hm, _⟩ | hsp
    · exact h c (mem_pyStrip _ _ hm)
    · rw [hsp]
      decide
  rcases normalizeChars_on_canon _ hcanon with heq | hnil
  · rw [heq]
    have hstrip : pyStrip (collapseWs (pyStrip z)) = collapseWs (pyStrip z) := by
      apply pyStrip_eq_self
      · intro c hc
        cases hsz : pyStrip z with
        | nil =>
          rw [collapseWs, hsz] at hc
          simp [collapseWsAux] at hc
        | cons d ds =>
          have hd : isPySpace d = false := pyStrip_head z d (by rw [hsz]; rfl)
          have hhd : (collapseWs (pyStrip z)).head? = some d := by
            rw [collapseWs, hsz]
            exact collapseWsAux_head (d :: ds) d rfl hd
          rw [hhd] at hc
          obtain rfl := Option.some.inj hc
          exact hd
      · intro c hc
        cases hsz : pyStrip z with
        | nil =>
          rw [collapseWs, hsz] at hc
          simp [collapseWsAux] at hc
        | cons d ds =>
          have hne : pyStrip z ≠ [] := by
            rw [hsz]
            simp
          obtain ⟨e, r, hrev⟩ : ∃ e r, (pyStrip z).reverse = e :: r := by
            cases hr : (pyStrip z).reverse with
            | nil =>
              rw [List.reverse_eq_nil_iff] at hr
              exact absurd hr hne
            | cons e r => exact ⟨e, r, rfl⟩
          have he : isPySpace e = false := pyStrip_last z e (by rw [hrev]; rfl)
          have hdecomp : pyStrip z = r.reverse ++ [e] := by
            rw [← List.reverse_reverse (pyStrip z), hrev, List.reverse_cons]
          obtain ⟨y, hy⟩ := collapseWsAux_snoc r.reverse false e he
          have hwdecomp : collapseWs (pyStrip z) = y ++ [e] := by
            rw [collapseWs, hdecomp, hy]
          rw [hwdecomp, List.reverse_append,
            show ([e] : List Char).reverse = [e] from rfl,
            List.singleton_append, List.head?_cons] at hc
          obtain rfl := Option.some.inj hc
          exact he
    rw [hstrip, collapseWs]
    refine (collapseWsAux_eq_self _ ?_ ?_).1
    · exact fun c hc => canonChar_ws c (hcanon c hc)
    · rw [show collapseWs (pyStrip z) = collapseWsAux false (pyStrip z) from rfl]
      exact (collapse_shape _).1
  · rw [hnil]
    rfl

/-! ### Claims C8 and C9 -/

/-- Claim C8 as stated is false on the code: stripping happens before
punctuation removal, so removing a leading special character can expose
a leading space that a second normalization pass then removes. -/
theorem normalize_name_idem_cx :
    normalize_name (normalize_name "! a") ≠ normalize_name "! a" := by
  decide

/-- Claim C8 (amended): normalization is idempotent from the second
application on — applying `normalize_name` three times equals applying
it twice, for every input string. -/
theorem normalize_name_double_idem (s : String) :
    normalize_name (normalize_name (normalize_name s)) =
      normalize_name (normalize_name s) := by
  have key : ∀ l : List Char,
      normalizeChars (normalizeChars (normalizeChars l)) =
        normalizeChars (normalizeChars l) := by
    intro l
    have hcanon := canon_normalizeChars l
    rcases normalizeChars_on_canon _ hcanon with heq | hnil
    · rw [heq]
      exact collapse_strip_canonical _ hcanon
    · rw [hnil]
      rfl
  show String.mk (normalizeChars (normalizeChars (normalizeChars s.data))) =
    String.mk (normalizeChars (normalizeChars s.data))
  rw [key]

theorem keepWordChar_cases (c : Char) (h : keepWordChar c = true) :
    specC9Char c = true ∨ c = '_' := by
  rw [keepWordChar, Bool.or_eq_true, Bool.or_eq_true, isWordChar,
    decide_eq_true_eq] at h
  rw [specC9Char, Bool.or_eq_true, Bool.or_eq_true, decide_eq_true_eq]
  rcases h with ((h1 | h1 | h1 | h1) | hws) | hd
  · exact Or.inl (Or.inl (Or.inl (Or.inr (Or.inl h1))))
  · exact Or.inl (Or.inl (Or.inl (Or.inl h1)))
  · exact Or.inl (Or.inl (Or.inl (Or.inr (Or.inr h1))))
  · exact Or.inr h1
  · exact Or.inl (Or.inl (Or.inr hws))
  · exact Or.inl (Or.inr hd)

theorem mem_normalizeChars_keep (l : List Char) (c : Char)
    (h : c ∈ normalizeChars l) : keepWordChar c = true := by
  rw [normalizeChars] at h
  split at h
  · exact absurd h (List.not_mem_nil c)
  · exact (List.mem_filter.mp h).2

/-- Claim C9 as stated is false on the code: Python `\w` also keeps the
underscore, which is not a letter, digit, whitespace or hyphen. -/
theorem normalize_name_alphabet_cx :
    '_' ∈ (normalize_name "a_b").data ∧ specC9Char '_' = false := by
  decide

/-- Claim C9 (amended): every character of a normalized name is a
letter, digit, whitespace, hyphen — or an underscore, which Python `\w`
also keeps; empty input normalizes to the empty string. -/
theorem normalize_name_alphabet (s : String) :
    (∀ c ∈ (normalize_name s).data, specC9Char c = true ∨ c = '_') ∧
    normalize_name "" = "" := by
  refine ⟨?_, rfl⟩
  intro c hc
  exact keepWordChar_cases c (mem_normalizeChars_keep s.data c hc)

/-- Witness for claim C9 (amended) at a concrete input. -/
theorem normalize_name_alphabet_witness :
    specC9Char 'a' = true ∨ 'a' = '_' :=
  (normalize_name_alphabet "a b-1").1 'a' (by decide)

end Payroll
